/-
Verification of the EQNet post-processing core (`eqnet/utils/postprocess.py`):
`detect_peaks`, `extract_picks`, `merge_das_picks`, `merge_seismic_picks`.

Shallow embedding conventions:
* PyTorch float tensors are embedded with exact rationals (ℚ); a 4-D tensor
  is a shape together with a value function over indices.
* `F.max_pool2d(scores, (kernel, 1), stride=(1, 1), padding=(pad, 0))` pads
  with -∞, so the pooled value at time `t` is the maximum of the scores over
  the in-range part of the window `[t - pad, t - pad + kernel - 1]`.  For
  `0 ≤ t < T` this in-range window always contains `t` itself, so we seed the
  fold with `s t`.
* `torch.topk` returns the K largest entries of the (suppressed) time series;
  tie-breaking among equal values is not specified by PyTorch, so the
  embedding fixes the deterministic choice "smallest index first", which
  matches the observable CPU behaviour.  All claims settled below are
  independent of the tie-breaking order.
-/
import Mathlib

namespace EQNet

/-!
### Executable rational arithmetic

The Batteries field operations on `ℚ` (`Rat.add`, `Rat.mul`, `Rat.inv`, …)
are marked `@[irreducible]`, which blocks kernel evaluation of concrete
witnesses by `decide`.  The embedding therefore routes every rational
multiplication and division through the following `mkRat`-based wrappers,
each proved equal to the corresponding field operation.
-/

/-- Multiplication on ℚ, evaluable by the kernel. -/
def qMul (a b : ℚ) : ℚ := mkRat (a.num * b.num) (a.den * b.den)

/-- Inverse on ℚ (with `qInv 0 = 0`), evaluable by the kernel. -/
def qInv (b : ℚ) : ℚ :=
  if 0 ≤ b.num then mkRat (b.den : ℤ) b.num.toNat
  else mkRat (-(b.den : ℤ)) (-b.num).toNat

/-- Division on ℚ, evaluable by the kernel. -/
def qDiv (a b : ℚ) : ℚ := qMul a (qInv b)

theorem qMul_eq (a b : ℚ) : qMul a b = a * b := by
  rw [qMul, Rat.mkRat_eq_div]
  push_cast
  rw [← div_mul_div_comm, Rat.num_div_den, Rat.num_div_den]

theorem qInv_eq (b : ℚ) : qInv b = b⁻¹ := by
  rcases lt_trichotomy b.num 0 with h | h | h
  · have hq : (((-b.num).toNat : ℕ) : ℚ) = -(b.num : ℚ) := by
      exact_mod_cast Int.toNat_of_nonneg (by omega : (0 : ℤ) ≤ -b.num)
    rw [qInv, if_neg (not_le.mpr h), Rat.mkRat_eq_div]
    push_cast
    rw [hq, neg_div_neg_eq, eq_comm, inv_eq_iff_eq_inv, inv_div,
      Rat.num_div_den]
  · have hb : b = 0 := by
      rwa [Rat.num_eq_zero] at h
    subst hb
    simp [qInv, mkRat]
  · have hq : ((b.num.toNat : ℕ) : ℚ) = (b.num : ℚ) := by
      exact_mod_cast Int.toNat_of_nonneg h.le
    rw [qInv, if_pos h.le, Rat.mkRat_eq_div]
    push_cast
    rw [hq, eq_comm, inv_eq_iff_eq_inv, inv_div, Rat.num_div_den]

theorem qDiv_eq (a b : ℚ) : qDiv a b = a / b := by
  rw [qDiv, qMul_eq, qInv_eq, div_eq_mul_inv]

/-- Python's `round` (banker's rounding, half to even): `f` is `⌊q⌋` via
floor division of the numerator by the denominator, `r / q.den` the
fractional part. -/
def pyRound (q : ℚ) : ℤ :=
  let n := q.num
  let d := (q.den : ℤ)
  let f := Int.fdiv n d
  let r := n - f * d
  if 2 * r < d then f
  else if d < 2 * r then f + 1
  else if f % 2 = 0 then f else f + 1

/-- Python's `int()` on a float: truncation toward zero
(T-division of the numerator by the denominator). -/
def pyInt (q : ℚ) : ℤ := Int.tdiv q.num (q.den : ℤ)

/-- A 4-D score tensor of shape (batch, class-channel, time, station),
axes exactly as in `detect_peaks` (`nb, nc, nt, nx = scores.shape`). -/
structure ScoreTensor where
  nb : ℕ
  nc : ℕ
  nt : ℕ
  nx : ℕ
  val : ℕ → ℕ → ℕ → ℕ → ℚ

/-- The time series of one (batch, channel, station) slice of a tensor. -/
def ScoreTensor.series (sc : ScoreTensor) (b c x : ℕ) : ℕ → ℚ :=
  fun t => sc.val b c t x

/-- In-range indices of the max-pool window anchored at output position `t`
(stride 1): input positions `u` with `t - pad ≤ u ≤ t - pad + kernel - 1`
and `u < T`, where `pad = kernel / 2`.  Out-of-range positions are padded
with -∞ by `F.max_pool2d` and never contribute to the maximum. -/
def windowIdx (T kernel t : ℕ) : List ℕ :=
  let pad := kernel / 2
  if T = 0 then []
  else
    let lo := t - pad
    List.range' lo (min (T - 1) (t + (kernel - 1) - pad) + 1 - lo)

/-- `smax` of `detect_peaks` line 21: the windowed maximum at time `t`
(for `t < T` the window contains `t`, so seeding the fold with `s t`
computes exactly the window maximum). -/
def smaxAt (s : ℕ → ℚ) (T kernel t : ℕ) : ℚ :=
  ((windowIdx T kernel t).map s).foldl max (s t)

/-- `keep = (smax == scores)` of `detect_peaks` line 22, at one position. -/
def keepAt (s : ℕ → ℚ) (T kernel t : ℕ) : Bool :=
  smaxAt s T kernel t == s t

/-- `scores = scores * keep` of `detect_peaks` line 23, at one position:
the non-maximum-suppressed score (multiplication by the 0/1 indicator
`keep`). -/
def nmsAt (s : ℕ → ℚ) (T kernel t : ℕ) : ℚ :=
  qMul (s t) (if keepAt s T kernel t then 1 else 0)

/-- First index in `avail` carrying the maximal value of `s`, together
with that value (strict comparison, so ties keep the earlier index). -/
def argmaxFrom (s : ℕ → ℚ) (avail : List ℕ) : Option (ℕ × ℚ) :=
  avail.foldl
    (fun acc u =>
      match acc with
      | none => some (u, s u)
      | some v => if v.2 < s u then some (u, s u) else some v)
    none

/-- `torch.topk` over the values `s` at the positions `avail`: repeatedly
select the largest remaining value (earliest index on ties), `k` times.
Returns (index, value) pairs, values non-increasing. -/
def selectTopk (s : ℕ → ℚ) : ℕ → List ℕ → List (ℕ × ℚ)
  | 0, _ => []
  | k + 1, avail =>
    match argmaxFrom s avail with
    | none => []
    | some v => v :: selectTopk s k (avail.erase v.1)

/-- `K = max(round(nt * 10.0 / 3000.0), 3)` when the caller passes `K = 0`
(`detect_peaks` lines 27–28), otherwise the caller's `K`. -/
def resolveK (nt K : ℕ) : ℕ :=
  if K = 0 then max (pyRound (qDiv (qMul (nt : ℚ) 10) 3000)).toNat 3 else K

/-- The class-channel of the input tensor feeding output channel `c` of the
top-K selection: with a single input channel `topk` runs on the scores
directly (`detect_peaks` line 30); otherwise channel 0 is dropped first
(`scores[:, 1:, ...]`, line 32), so output channel `c` reads input
channel `c + 1`. -/
def srcChannel (sc : ScoreTensor) (c : ℕ) : ℕ :=
  if sc.nc = 1 then c else c + 1

/-- Result of `detect_peaks`: the resolved top-K budget, the number of
output class-channels, and per (batch, output-channel, station) the list of
(time-index, score) pairs (the zip of the returned `topk_inds` and
`topk_scores`). -/
structure PeakOut where
  outc : ℕ
  K : ℕ
  peaks : ℕ → ℕ → ℕ → List (ℕ × ℚ)

/-- `detect_peaks(scores, vmin, kernel, stride=1, K)` (lines 17–35).
The `vmin` parameter is unused by the source function and omitted.  After
suppression the tensor is transposed to (batch, channel, station, time) and
`topk` is taken along the time axis; with more than one class-channel the
selection runs on `scores[:, 1:, ...]` (channel 0, the background class,
dropped), and `.view(batch, chn - 1, ns, -1)` is a no-op reshape.  Line 33
then takes `topk_inds % nt`. -/
def detect_peaks (sc : ScoreTensor) (kernel : ℕ) (K : ℕ) : PeakOut :=
  let K' := resolveK sc.nt K
  { outc := if sc.nc = 1 then 1 else sc.nc - 1
    K := K'
    peaks := fun b c x =>
      (selectTopk (fun t => nmsAt (sc.series b (srcChannel sc c) x) sc.nt kernel t)
          K' (List.range sc.nt)).map fun p => (p.1 % sc.nt, p.2) }

/-! ### Basic lemmas about the window maximum -/

theorem le_foldl_max {α : Type} [LinearOrder α] (l : List α) (a : α) :
    a ≤ l.foldl max a := by
  induction l generalizing a with
  | nil => exact le_refl a
  | cons x xs ih => exact le_trans (le_max_left a x) (ih (max a x))

theorem mem_le_foldl_max {α : Type} [LinearOrder α] (l : List α) (a : α) :
    ∀ x ∈ l, x ≤ l.foldl max a := by
  induction l generalizing a with
  | nil => intro x hx; cases hx
  | cons y ys ih =>
    intro x hx
    rcases List.mem_cons.mp hx with h | h
    · subst h; exact le_trans (le_max_right a x) (le_foldl_max ys (max a x))
    · exact ih (max a y) x h

theorem foldl_max_le {α : Type} [LinearOrder α] (l : List α) (a c : α)
    (ha : a ≤ c) (hl : ∀ x ∈ l, x ≤ c) : l.foldl max a ≤ c := by
  induction l generalizing a with
  | nil => exact ha
  | cons x xs ih =>
    exact ih (max a x) (max_le ha (hl x (List.mem_cons_self x xs)))
      (fun y hy => hl y (List.mem_cons_of_mem x hy))

/-- Membership in the pooling window: exactly the in-range positions `u`
with `t - pad ≤ u ≤ t - pad + kernel - 1` (for a positive kernel). -/
theorem mem_windowIdx {T kernel t u : ℕ} (hk : 1 ≤ kernel) :
    u ∈ windowIdx T kernel t ↔
      u < T ∧ t ≤ u + kernel / 2 ∧ u + kernel / 2 + 1 ≤ t + kernel := by
  simp only [windowIdx]
  split
  · simp
    omega
  · rw [List.mem_range'_1]
    omega

/-- The window maximum dominates every in-range window entry. -/
theorem smaxAt_ge (s : ℕ → ℚ) (T kernel t : ℕ) :
    ∀ u ∈ windowIdx T kernel t, s u ≤ smaxAt s T kernel t := by
  intro u hu
  exact mem_le_foldl_max _ _ (s u) (List.mem_map_of_mem s hu)

/-- The window maximum dominates the center score. -/
theorem smaxAt_ge_self (s : ℕ → ℚ) (T kernel t : ℕ) :
    s t ≤ smaxAt s T kernel t :=
  le_foldl_max _ _

/-- If the center score dominates the whole in-range window, it is the
window maximum. -/
theorem smaxAt_le (s : ℕ → ℚ) (T kernel t : ℕ)
    (h : ∀ u ∈ windowIdx T kernel t, s u ≤ s t) :
    smaxAt s T kernel t ≤ s t := by
  refine foldl_max_le _ _ _ (le_refl _) ?_
  intro x hx
  rcases List.mem_map.mp hx with ⟨u, hu, rfl⟩
  exact h u hu

/-- A sample survives suppression iff its score dominates the in-range
pooling window. -/
theorem keepAt_iff (s : ℕ → ℚ) (T kernel t : ℕ) :
    keepAt s T kernel t = true ↔
      ∀ u ∈ windowIdx T kernel t, s u ≤ s t := by
  constructor
  · intro h u hu
    have : smaxAt s T kernel t = s t := by
      simpa [keepAt, beq_iff_eq] using h
    exact this ▸ smaxAt_ge s T kernel t u hu
  · intro h
    have : smaxAt s T kernel t = s t :=
      le_antisymm (smaxAt_le s T kernel t h) (smaxAt_ge_self s T kernel t)
    simp [keepAt, this]

/-- Suppressed samples have their scores zeroed. -/
theorem nmsAt_of_not_keep {s : ℕ → ℚ} {T kernel t : ℕ}
    (h : keepAt s T kernel t = false) : nmsAt s T kernel t = 0 := by
  simp [nmsAt, h, qMul_eq]

/-- Surviving samples keep their original scores. -/
theorem nmsAt_of_keep {s : ℕ → ℚ} {T kernel t : ℕ}
    (h : keepAt s T kernel t = true) : nmsAt s T kernel t = s t := by
  simp [nmsAt, h, qMul_eq]

/-! ### Basic lemmas about top-K selection -/

theorem argmaxFrom_eq_none {s : ℕ → ℚ} {avail : List ℕ} :
    argmaxFrom s avail = none ↔ avail = [] := by
  have key : ∀ (l' : List ℕ) (v : ℕ × ℚ),
      l'.foldl (fun acc u =>
        match acc with
        | none => some (u, s u)
        | some v => if v.2 < s u then some (u, s u) else some v) (some v) ≠
        none := by
    intro l'
    induction l' with
    | nil => intro v; simp
    | cons b m ih =>
      intro v
      simp only [List.foldl_cons]
      split <;> exact ih _
  cases avail with
  | nil => simp [argmaxFrom]
  | cons a l =>
    simp only [argmaxFrom, List.foldl_cons]
    exact iff_of_false (key l (a, s a)) (by simp)

theorem argmaxFrom_mem {s : ℕ → ℚ} {avail : List ℕ} {v : ℕ × ℚ}
    (h : argmaxFrom s avail = some v) : v.1 ∈ avail ∧ v.2 = s v.1 := by
  suffices H : ∀ (l : List ℕ) (acc : Option (ℕ × ℚ)) (w : ℕ × ℚ),
      l.foldl (fun acc u =>
        match acc with
        | none => some (u, s u)
        | some v => if v.2 < s u then some (u, s u) else some v) acc =
        some w →
      (acc = some w ∨ (w.1 ∈ l ∧ w.2 = s w.1)) by
    rcases H avail none v h with h' | h'
    · cases h'
    · exact h'
  intro l
  induction l with
  | nil => intro acc w h'; exact Or.inl h'
  | cons a m ih =>
    intro acc w h'
    simp only [List.foldl_cons] at h'
    rcases acc with _ | v'
    · rcases ih (some (a, s a)) w h' with h'' | h''
      · rcases Option.some.inj h'' with rfl
        exact Or.inr ⟨List.mem_cons_self a m, rfl⟩
      · exact Or.inr ⟨List.mem_cons_of_mem a h''.1, h''.2⟩
    · by_cases hc : v'.2 < s a
      · simp only [hc, if_pos] at h'
        rcases ih (some (a, s a)) w h' with h'' | h''
        · rcases Option.some.inj h'' with rfl
          exact Or.inr ⟨List.mem_cons_self a m, rfl⟩
        · exact Or.inr ⟨List.mem_cons_of_mem a h''.1, h''.2⟩
      · simp only [hc, if_neg, not_false_iff] at h'
        rcases ih (some v') w h' with h'' | h''
        · exact Or.inl h''
        · exact Or.inr ⟨List.mem_cons_of_mem a h''.1, h''.2⟩

/-- Every selected pair's index is available and its value is the series
value at that index. -/
theorem selectTopk_mem {s : ℕ → ℚ} :
    ∀ {k : ℕ} {avail : List ℕ} {p : ℕ × ℚ},
      p ∈ selectTopk s k avail → p.1 ∈ avail ∧ p.2 = s p.1 := by
  intro k
  induction k with
  | zero => intro avail p hp; cases hp
  | succ k ih =>
    intro avail p hp
    simp only [selectTopk] at hp
    rcases h : argmaxFrom s avail with _ | v
    · rw [h] at hp; cases hp
    · rw [h] at hp
      rcases List.mem_cons.mp hp with h' | h'
      · subst h'; exact argmaxFrom_mem h
      · have := ih h'
        exact ⟨List.erase_subset _ _ this.1, this.2⟩

/-- With enough available positions, exactly `k` pairs are selected. -/
theorem selectTopk_length {s : ℕ → ℚ} :
    ∀ {k : ℕ} {avail : List ℕ}, k ≤ avail.length →
      (selectTopk s k avail).length = k := by
  intro k
  induction k with
  | zero => intro avail _; rfl
  | succ k ih =>
    intro avail hk
    have hne : avail ≠ [] := by
      intro h; subst h; simp at hk
    rcases h : argmaxFrom s avail with _ | v
    · exact absurd (argmaxFrom_eq_none.mp h) hne
    · have hi : v.1 ∈ avail := (argmaxFrom_mem h).1
      have hlen : (avail.erase v.1).length = avail.length - 1 :=
        List.length_erase_of_mem hi
      have : k ≤ (avail.erase v.1).length := by omega
      simp [selectTopk, h, ih this]

/-- Selected indices are pairwise distinct (when `avail` has no
duplicates). -/
theorem selectTopk_nodup {s : ℕ → ℚ} :
    ∀ {k : ℕ} {avail : List ℕ}, avail.Nodup →
      ((selectTopk s k avail).map Prod.fst).Nodup := by
  intro k
  induction k with
  | zero => intro avail _; simp [selectTopk]
  | succ k ih =>
    intro avail hnd
    rcases h : argmaxFrom s avail with _ | v
    · simp [selectTopk, h]
    · simp only [selectTopk, h, List.map_cons, List.nodup_cons]
      constructor
      · intro hmem
        rcases List.mem_map.mp hmem with ⟨p, hp, hfst⟩
        have := (selectTopk_mem hp).1
        rw [hfst] at this
        exact (List.Nodup.not_mem_erase hnd) this
      · exact ih (hnd.erase v.1)

/-! ### Transfer lemmas for `detect_peaks` -/

/-- The `% nt` of line 33 is the identity: all selected indices already lie
in `[0, nt)`. -/
theorem detect_peaks_peaks_eq (sc : ScoreTensor) (kernel K b c x : ℕ) :
    (detect_peaks sc kernel K).peaks b c x =
      selectTopk (fun t => nmsAt (sc.series b (srcChannel sc c) x) sc.nt kernel t)
        (resolveK sc.nt K) (List.range sc.nt) := by
  show (selectTopk _ _ _).map _ = _
  rw [List.map_congr_left (g := id), List.map_id]
  intro p hp
  have h1 := (selectTopk_mem hp).1
  have h2 : p.1 < sc.nt := List.mem_range.mp h1
  simp [Nat.mod_eq_of_lt h2]

/-- Every returned (index, score) pair has an in-range index and carries the
post-suppression score at that index. -/
theorem mem_detect_peaks {sc : ScoreTensor} {kernel K b c x : ℕ} {p : ℕ × ℚ}
    (hp : p ∈ (detect_peaks sc kernel K).peaks b c x) :
    p.1 < sc.nt ∧
      p.2 = nmsAt (sc.series b (srcChannel sc c) x) sc.nt kernel p.1 := by
  rw [detect_peaks_peaks_eq] at hp
  have h := selectTopk_mem hp
  exact ⟨List.mem_range.mp h.1, h.2⟩

/-! ### Claim theorems about `detect_peaks` -/

/-- **C1.** For scores in [0,1] and a positive odd kernel, a time sample
survives non-maximum suppression iff its own score equals the maximum score
over the centered window `[t - pad, t + pad]` (`pad = kernel // 2`)
intersected with the valid time range `[0, T)` (equivalently, iff it
dominates every in-range window entry — no wraparound, no padding values);
non-surviving samples have their scores zeroed; and all samples of a
3-sample flat maximum region survive, so such a plateau yields at least 2
survivors. -/
theorem C1_nms_window_characterization
    (s : ℕ → ℚ) (T kernel : ℕ) (hk : kernel % 2 = 1)
    (_hbound : ∀ t, t < T → 0 ≤ s t ∧ s t ≤ 1) :
    (∀ t, t < T →
      (keepAt s T kernel t = true ↔
        ∀ u, u < T → t ≤ u + kernel / 2 → u ≤ t + kernel / 2 → s u ≤ s t))
    ∧ (∀ t, t < T → keepAt s T kernel t = false → nmsAt s T kernel t = 0)
    ∧ (∀ p, p + 2 < T → s p = s (p + 1) → s (p + 1) = s (p + 2) →
        (∀ u, u < T → p ≤ u + kernel / 2 → u ≤ p + 2 + kernel / 2 → s u ≤ s p) →
        keepAt s T kernel p = true ∧ keepAt s T kernel (p + 1) = true ∧
          keepAt s T kernel (p + 2) = true) := by
  have hk1 : 1 ≤ kernel := by omega
  have hiff : ∀ t, t < T →
      (keepAt s T kernel t = true ↔
        ∀ u, u < T → t ≤ u + kernel / 2 → u ≤ t + kernel / 2 → s u ≤ s t) := by
    intro t _
    rw [keepAt_iff]
    constructor
    · intro h u hu h1 h2
      exact h u ((mem_windowIdx hk1).mpr ⟨hu, h1, by omega⟩)
    · intro h u hu
      rcases (mem_windowIdx hk1).mp hu with ⟨h1, h2, h3⟩
      exact h u h1 h2 (by omega)
  refine ⟨hiff, fun t _ h => nmsAt_of_not_keep h, ?_⟩
  intro p hp h01 h12 hdom
  refine ⟨?_, ?_, ?_⟩
  · exact (hiff p (by omega)).mpr fun u hu ha hb => hdom u hu ha (by omega)
  · refine (hiff (p + 1) (by omega)).mpr fun u hu ha hb => ?_
    rw [← h01]
    exact hdom u hu (by omega) (by omega)
  · refine (hiff (p + 2) (by omega)).mpr fun u hu ha hb => ?_
    rw [← h12, ← h01]
    exact hdom u hu (by omega) (by omega)

/-- Concrete series for the C1 witness: a 3-sample plateau of value 1/2 at
indices 2, 3, 4 inside a length-7 series. -/
def c1Series : ℕ → ℚ :=
  fun t =>
    if t = 2 ∨ t = 3 ∨ t = 4 then mkRat 1 2 else if t = 0 then mkRat 1 4 else 0

theorem C1_witness :
    keepAt c1Series 7 3 2 = true ∧ keepAt c1Series 7 3 3 = true ∧
      keepAt c1Series 7 3 4 = true :=
  (C1_nms_window_characterization c1Series 7 3 (by decide)
      (by decide)).2.2 2 (by decide) (by decide) (by decide) (by decide)

/-- Input tensor for the C3 counterexample: one batch, one channel, one
station, three time samples with scores 1, 9/10, 4/5. -/
def c3Tensor : ScoreTensor :=
  { nb := 1, nc := 1, nt := 3, nx := 1
    val := fun _ _ t _ =>
      if t = 0 then 1
      else if t = 1 then mkRat 9 10 else if t = 2 then mkRat 4 5 else 0 }

/-- **C3 is false as stated**: `detect_peaks` on the scores 1, 9/10, 4/5
with kernel 3 and K = 2 returns the pair (index 1, score 0) — the sample at
index 1 was suppressed and zeroed — but the input tensor value at index 1
is 9/10 ≠ 0, so a returned score need not equal the ScoreTensor value at
its index. -/
theorem C3_counterexample :
    ((1 : ℕ), (0 : ℚ)) ∈ (detect_peaks c3Tensor 3 2).peaks 0 0 0 ∧
      ¬ ((0 : ℚ) = c3Tensor.val 0 0 1 0) := by
  constructor
  · rw [detect_peaks_peaks_eq]
    decide
  · decide

/-- **C3 (amended).** Every (time-index, score) pair returned by
`detect_peaks` carries the post-suppression score at its index; in
particular, whenever the sample at that index survived suppression, the
returned score equals the input ScoreTensor value at that
(batch, source-channel, time-index, station) position. -/
theorem C3_peak_scores_post_suppression
    (sc : ScoreTensor) (kernel K b c x : ℕ) (p : ℕ × ℚ)
    (hp : p ∈ (detect_peaks sc kernel K).peaks b c x) :
    p.2 = nmsAt (sc.series b (srcChannel sc c) x) sc.nt kernel p.1 ∧
      (keepAt (sc.series b (srcChannel sc c) x) sc.nt kernel p.1 = true →
        p.2 = sc.val b (srcChannel sc c) p.1 x) := by
  have h := mem_detect_peaks hp
  refine ⟨h.2, fun hkeep => ?_⟩
  rw [h.2, nmsAt_of_keep hkeep]
  rfl

theorem C3_witness :
    (1 : ℚ) = nmsAt (c3Tensor.series 0 0 0) 3 3 0 ∧
      (keepAt (c3Tensor.series 0 0 0) 3 3 0 = true →
        (1 : ℚ) = c3Tensor.val 0 0 0 0) :=
  C3_peak_scores_post_suppression c3Tensor 3 2 0 0 0 (0, 1)
    (by rw [detect_peaks_peaks_eq]; decide)

/-- **C8.** With at least 2 class-channels, top-K selection runs only over
channels 1..C-1: the output channel dimension is C-1 and every returned
entry of output channel `c` carries a (post-suppression) score of input
channel `c + 1` — never of the background channel 0.  With a single
channel, that channel is used directly. -/
theorem C8_background_channel_dropped (sc : ScoreTensor) (kernel K : ℕ) :
    (2 ≤ sc.nc →
      (detect_peaks sc kernel K).outc = sc.nc - 1 ∧
      ∀ b c x, ∀ p ∈ (detect_peaks sc kernel K).peaks b c x,
        p.2 = nmsAt (sc.series b (c + 1) x) sc.nt kernel p.1) ∧
    (sc.nc = 1 →
      (detect_peaks sc kernel K).outc = 1 ∧
      ∀ b c x, ∀ p ∈ (detect_peaks sc kernel K).peaks b c x,
        p.2 = nmsAt (sc.series b c x) sc.nt kernel p.1) := by
  constructor
  · intro hnc
    have hne : sc.nc ≠ 1 := by omega
    constructor
    · show (if sc.nc = 1 then 1 else sc.nc - 1) = sc.nc - 1
      rw [if_neg hne]
    · intro b c x p hp
      have h := (mem_detect_peaks hp).2
      rwa [srcChannel, if_neg hne] at h
  · intro hnc
    constructor
    · show (if sc.nc = 1 then 1 else sc.nc - 1) = 1
      rw [if_pos hnc]
    · intro b c x p hp
      have h := (mem_detect_peaks hp).2
      rwa [srcChannel, if_pos hnc] at h

/-- Two-channel input tensor for the C8 witness: background channel 0 is
constantly 1, phase channel 1 has a single peak of 3/5 at index 0. -/
def c8Tensor : ScoreTensor :=
  { nb := 1, nc := 2, nt := 3, nx := 1
    val := fun _ c t _ =>
      if c = 0 then 1 else if t = 0 then mkRat 3 5 else 0 }

theorem C8_witness :
    (detect_peaks c8Tensor 3 2).outc = 1 ∧
      mkRat 3 5 = nmsAt (c8Tensor.series 0 1 0) c8Tensor.nt 3 0 := by
  have h := (C8_background_channel_dropped c8Tensor 3 2).1 (by decide)
  refine ⟨h.1, ?_⟩
  exact h.2 0 0 0 (0, mkRat 3 5) (by rw [detect_peaks_peaks_eq]; decide)

/-- **C10.** When the resolved top-K budget satisfies `1 ≤ K ≤ T`,
`detect_peaks` returns exactly `K` (index, score) pairs per
(batch, class, station) group, with pairwise-distinct indices all lying in
`[0, T)`; any returned entry located at a suppressed (zeroed) sample
carries score 0, so when fewer than `K` samples survive suppression the
remaining entries carry score 0 at suppressed indices. -/
theorem C10_topk_shape (sc : ScoreTensor) (kernel K b c x : ℕ)
    (_h1 : 1 ≤ (detect_peaks sc kernel K).K)
    (h2 : (detect_peaks sc kernel K).K ≤ sc.nt) :
    ((detect_peaks sc kernel K).peaks b c x).length =
        (detect_peaks sc kernel K).K ∧
      (((detect_peaks sc kernel K).peaks b c x).map Prod.fst).Nodup ∧
      (∀ p ∈ (detect_peaks sc kernel K).peaks b c x, p.1 < sc.nt) ∧
      (∀ p ∈ (detect_peaks sc kernel K).peaks b c x,
        keepAt (sc.series b (srcChannel sc c) x) sc.nt kernel p.1 = false →
          p.2 = 0) := by
  have hK : (detect_peaks sc kernel K).K = resolveK sc.nt K := rfl
  rw [hK] at h2 ⊢
  rw [detect_peaks_peaks_eq]
  refine ⟨?_, ?_, ?_, ?_⟩
  · exact selectTopk_length (by simpa using h2)
  · exact selectTopk_nodup (List.nodup_range sc.nt)
  · intro p hp
    exact List.mem_range.mp (selectTopk_mem hp).1
  · intro p hp hkeep
    have h := (selectTopk_mem hp).2
    rw [h]
    exact nmsAt_of_not_keep hkeep

theorem C10_witness :
    ((detect_peaks c3Tensor 3 2).peaks 0 0 0).length =
        (detect_peaks c3Tensor 3 2).K ∧
      (((detect_peaks c3Tensor 3 2).peaks 0 0 0).map Prod.fst).Nodup ∧
      (∀ p ∈ (detect_peaks c3Tensor 3 2).peaks 0 0 0, p.1 < c3Tensor.nt) ∧
      (∀ p ∈ (detect_peaks c3Tensor 3 2).peaks 0 0 0,
        keepAt (c3Tensor.series 0 (srcChannel c3Tensor 0) 0) c3Tensor.nt 3
            p.1 = false →
          p.2 = 0) :=
  C10_topk_shape c3Tensor 3 2 0 0 0 (by decide) (by decide)

/-!
### Python `datetime` model

`extract_picks` parses the per-batch begin time with
`datetime.fromisoformat(begin_i.rstrip("Z"))`, adds
`timedelta(seconds=index * dt)` and formats with
`isoformat(timespec="milliseconds")`.  A naive datetime is represented by
its civil day number (days since 1970-01-01, which Python reaches through
`toordinal`) and the microsecond of the day.  Civil-date conversions use
the standard proleptic-Gregorian day-count algorithm with
truncating division, exactly as Python's calendar arithmetic behaves on
these ranges.
-/

/-- Days since 1970-01-01 of the civil date (y, m, d),
proleptic Gregorian. -/
def daysFromCivil (y m d : ℤ) : ℤ :=
  let y' := if m ≤ 2 then y - 1 else y
  let era := Int.tdiv (if 0 ≤ y' then y' else y' - 399) 400
  let yoe := y' - era * 400
  let mp := Int.emod (m + 9) 12
  let doy := Int.tdiv (153 * mp + 2) 5 + d - 1
  let doe := yoe * 365 + Int.tdiv yoe 4 - Int.tdiv yoe 100 + doy
  era * 146097 + doe - 719468

/-- Civil date (y, m, d) of a day count (inverse of `daysFromCivil`). -/
def civilFromDays (z0 : ℤ) : ℤ × ℤ × ℤ :=
  let z := z0 + 719468
  let era := Int.tdiv (if 0 ≤ z then z else z - 146096) 146097
  let doe := z - era * 146097
  let yoe := Int.tdiv (doe - Int.tdiv doe 1460 + Int.tdiv doe 36524 -
    Int.tdiv doe 146096) 365
  let y' := yoe + era * 400
  let doy := doe - (365 * yoe + Int.tdiv yoe 4 - Int.tdiv yoe 100)
  let mp := Int.tdiv (5 * doy + 2) 153
  let d := doy - Int.tdiv (153 * mp + 2) 5 + 1
  let m := mp + if mp < 10 then 3 else -9
  (if m ≤ 2 then y' + 1 else y', m, d)

/-- A naive Python `datetime`: civil day number (days since 1970-01-01)
and microsecond of the day (`0 ≤ usod < 86400000000`). -/
structure PyDateTime where
  days : ℤ
  usod : ℤ
  deriving DecidableEq

/-- Value of a decimal digit character. -/
def digitVal (c : Char) : ℕ := c.toNat - 48

/-- The number encoded by `len` digit characters starting at `pos`. -/
def parseNatAt (cs : List Char) (pos len : ℕ) : ℕ :=
  ((cs.drop pos).take len).foldl (fun a c => a * 10 + digitVal c) 0

/-- `datetime.fromisoformat` on a well-formed ISO-8601 string
`YYYY-MM-DD[THH:MM:SS[.fff[fff]]]` (fixed field positions; Python raises
on malformed input, which is outside the modelled behaviour).  A missing
time part means midnight; fractional digits are padded to microseconds. -/
def pyDatetimeFromIso (str : String) : PyDateTime :=
  let cs := str.data
  let y := parseNatAt cs 0 4
  let mo := parseNatAt cs 5 2
  let d := parseNatAt cs 8 2
  let h := parseNatAt cs 11 2
  let mi := parseNatAt cs 14 2
  let se := parseNatAt cs 17 2
  let frac := (cs.drop 20 ++ List.replicate 6 '0').take 6
  let us := frac.foldl (fun a c => a * 10 + digitVal c) 0
  { days := daysFromCivil y mo d
    usod := (((h * 3600 + mi * 60 + se) * 1000000 + us : ℕ) : ℤ) }

/-- Python's `str.rstrip("Z")`. -/
def pyRstripZ (s : String) : String :=
  String.mk ((s.data.reverse.dropWhile fun c => c = 'Z').reverse)

/-- `timedelta(seconds=x)` for a float-valued `x`, as a signed number of
microseconds: Python rounds fractional microseconds half to even. -/
def pyTimedeltaUsec (seconds : ℚ) : ℤ := pyRound (qMul seconds 1000000)

/-- `datetime + timedelta(seconds=s)`. -/
def dtAddSeconds (d : PyDateTime) (s : ℚ) : PyDateTime :=
  let total := d.days * 86400000000 + d.usod + pyTimedeltaUsec s
  { days := Int.ediv total 86400000000
    usod := Int.emod total 86400000000 }

/-- A natural number zero-padded to `w` digits. -/
def padNum (w n : ℕ) : String :=
  let s := toString n
  String.mk (List.replicate (w - s.length) '0') ++ s

/-- `datetime.isoformat(timespec="milliseconds")`: milliseconds are the
microseconds truncated to thousandths. -/
def isoformatMs (d : PyDateTime) : String :=
  let c := civilFromDays d.days
  let usod := d.usod.toNat
  padNum 4 c.1.toNat ++ "-" ++ padNum 2 c.2.1.toNat ++ "-" ++
    padNum 2 c.2.2.toNat ++ "T" ++
    padNum 2 (usod / 3600000000) ++ ":" ++
    padNum 2 (usod % 3600000000 / 60000000) ++ ":" ++
    padNum 2 (usod % 60000000 / 1000000) ++ "." ++
    padNum 3 (usod % 1000000 / 1000)

/-!
### Python number formatting
-/

/-- `f"{x:.3f}"`: the value scaled by 1000 and rounded half to even, then
printed with three decimals. -/
def formatF3 (q : ℚ) : String :=
  let m := pyRound (qMul q 1000)
  let sgn := if m < 0 then "-" else ""
  let a := m.natAbs
  sgn ++ toString (a / 1000) ++ "." ++ padNum 3 (a % 1000)

/-- Number of decimal digits of `n` (with `decDigits 0 = 1`). -/
def decDigits (n : ℕ) : ℕ := (toString n).length

/-- `10 ^ e` as a rational, for a signed exponent. -/
def qPow10 (e : ℤ) : ℚ :=
  if 0 ≤ e then mkRat (10 ^ e.toNat) 1 else mkRat 1 (10 ^ (-e).toNat)

/-- The decimal exponent of a positive rational: the greatest `e` with
`10 ^ e ≤ x`. -/
def decExp (x : ℚ) : ℤ :=
  let e := (decDigits x.num.toNat : ℤ) - (decDigits x.den : ℤ)
  if qPow10 e ≤ x then e else e - 1

/-- `f"{x:.3e}"`: scientific notation with a 3-decimal mantissa (rounded
half to even, with carry into the exponent) and a signed two-digit
exponent. -/
def formatE3 (q : ℚ) : String :=
  if q = 0 then "0.000e+00"
  else
    let sgn := if q < 0 then "-" else ""
    let x := mkRat q.num.natAbs q.den
    let e := decExp x
    let m := pyRound (qMul (qDiv x (qPow10 e)) 1000)
    let me : ℤ × ℤ := if 10000 ≤ m then (1000, e + 1) else (m, e)
    sgn ++ toString (me.1.toNat / 1000) ++ "." ++ padNum 3 (me.1.toNat % 1000) ++
      "e" ++ (if me.2 < 0 then "-" else "+") ++ padNum 2 me.2.natAbs

example : daysFromCivil 1970 1 1 = 0 := by decide
example : civilFromDays 19723 = (2024, 1, 1) := by decide
example : daysFromCivil 2024 1 1 = 19723 := by decide
example :
    isoformatMs (dtAddSeconds (pyDatetimeFromIso "2024-01-01T00:00:00.000")
      (qMul 150 (mkRat 1 100))) = "2024-01-01T00:00:01.500" := by decide
example :
    isoformatMs (dtAddSeconds (pyDatetimeFromIso (pyRstripZ "2023-12-31T23:59:59.750Z"))
      (mkRat 1 2)) = "2024-01-01T00:00:00.250" := by decide
example : formatF3 (mkRat 19 20) = "0.950" := by decide
example : formatF3 0 = "0.000" := by decide
example : formatE3 2 = "2.000e+00" := by decide
example : formatE3 (mkRat 1 250) = "4.000e-03" := by decide
example : formatE3 (mkRat 99999 10) = "1.000e+04" := by decide

/-!
### `extract_picks`
-/

/-- Absolute value on ℚ, evaluable by the kernel. -/
def qAbs (q : ℚ) : ℚ := mkRat (q.num.natAbs : ℤ) q.den

theorem qAbs_eq (q : ℚ) : qAbs q = |q| := by
  rcases le_or_lt 0 q.num with h | h
  · have hq : 0 ≤ q := Rat.num_nonneg.mp h
    rw [qAbs, Int.natAbs_of_nonneg h, Rat.mkRat_self, abs_of_nonneg hq]
  · have hq : q < 0 :=
      lt_of_not_ge fun hge => absurd (Rat.num_nonneg.mpr hge) (not_le.mpr h)
    have hn : (q.num.natAbs : ℤ) = -q.num := by omega
    rw [qAbs, hn, Rat.mkRat_eq_div, abs_of_neg hq]
    push_cast
    rw [neg_div, Rat.num_div_den]

/-- The `dt` argument of `extract_picks`: either one float broadcast over
the batch, or one value per batch element (`dt[i].item()`). -/
inductive DtArg
  | scalar (q : ℚ)
  | perBatch (l : List ℚ)

/-- The sample interval of batch element `i` (lines 68–71). -/
def DtArg.get : DtArg → ℕ → ℚ
  | .scalar q, _ => q
  | .perBatch l, i => l.getD i 0

/-- The optional raw waveform: shape (batch, input-channel, time, station),
reduced over the channel axis before amplitude extraction. -/
structure Waveform where
  nchan : ℕ
  val : ℕ → ℕ → ℕ → ℕ → ℚ

/-- `waveform_amp = torch.max(torch.abs(waveform), dim=1)[0]` (line 82) at
one (batch, time, station) position.  Amplitudes are non-negative, so
seeding the fold with 0 computes the channel maximum (a channel count of 0
would be a PyTorch error and is outside the modelled behaviour). -/
def waveAmp (w : Waveform) (i t k : ℕ) : ℚ :=
  ((List.range w.nchan).map fun c => qAbs (w.val i c t k)).foldl max 0

/-- `torch.max(waveform_amp[i, j1:j2, k])` (line 139): the maximum
amplitude over the half-open index range `[j1, j2)`.  Amplitudes are
non-negative so the fold is seeded with 0; an empty slice (a PyTorch
error) evaluates to 0. -/
def sliceMax (f : ℕ → ℚ) (j1 j2 : ℕ) : ℚ :=
  ((List.range' j1 (j2 - j1)).map f).foldl max 0

/-- The exclusive end of the amplitude window (line 138):
`j2 = min(j1 + window_amp_i, topk_index_ijk[ii + 1])` when the pick is not
the last of its sorted group, else `j1 + window_amp_i`. -/
def ampEnd (sortedIdx : List ℕ) (ii j1 wampi : ℕ) : ℕ :=
  match sortedIdx.get? (ii + 1) with
  | some nxt => min (j1 + wampi) nxt
  | none => j1 + wampi

/-- One materialized pick (the dict of lines 123–139); the two optional
fields are present exactly when `polarity_score` / `waveform` were
supplied. -/
structure Pick where
  station_id : String
  phase_index : ℤ
  phase_time : String
  phase_score : String
  phase_type : String
  phase_polarity : Option String
  phase_amplitude : Option String
  deriving DecidableEq

/-- The arguments of `extract_picks`, with the source defaults; `topk`
bundles `topk_index` and `topk_score` as (index, score) pairs per
(batch, channel, station), and the two `kwargs` offsets are explicit
optional fields. -/
structure ExtractArgs where
  batch : ℕ
  nch : ℕ
  nst : ℕ
  topk : ℕ → ℕ → ℕ → List (ℕ × ℚ)
  file_name : Option (List String) := none
  begin_time : Option (List String) := none
  station_id : Option (ℕ → ℕ → String) := none
  phases : List String := ["P", "S"]
  vmin : ℚ := mkRat 3 10
  dt : DtArg := .scalar (mkRat 1 100)
  polarity_score : Option (ℕ → ℕ → ℕ → ℕ → ℚ) := none
  waveform : Option Waveform := none
  window_amp : List ℚ := [10, 5]
  begin_channel_index : Option (List ℤ) := none
  begin_time_index : Option (List ℤ) := none

/-- `begin_channel_index[i]` / `begin_time_index[i]`, defaulting to 0 when
the kwarg is absent (lines 72–79). -/
def offAt (o : Option (List ℤ)) (i : ℕ) : ℤ :=
  match o with
  | some l => l.getD i 0
  | none => 0

/-- The begin-time string of batch element `i` (lines 95–100): the epoch
when `begin_time` is absent or the entry is empty. -/
def resolveBeginTime (a : ExtractArgs) (i : ℕ) : String :=
  match a.begin_time with
  | none => "1970-01-01T00:00:00.000"
  | some l =>
    let b := l.getD i ""
    if b.length = 0 then "1970-01-01T00:00:00.000" else b

/-- `begin_i = datetime.fromisoformat(begin_i.rstrip("Z"))` (line 101). -/
def beginAnchor (a : ExtractArgs) (i : ℕ) : PyDateTime :=
  pyDatetimeFromIso (pyRstripZ (resolveBeginTime a i))

/-- Broadcast of a length-1 `window_amp` over the phase list
(lines 85–86). -/
def resolveWindowAmp (a : ExtractArgs) : List ℚ :=
  if a.window_amp.length = 1 then
    List.replicate a.phases.length (a.window_amp.getD 0 0)
  else a.window_amp

/-- `f"{z:04d}"` for a signed integer: the sign occupies one of the four
positions. -/
def intPad4 (z : ℤ) : String :=
  if z < 0 then "-" ++ padNum 3 z.natAbs else padNum 4 z.natAbs

/-- The pick built from the `ii`-th entry `e` of the time-sorted
(batch `i`, channel `j`, station `k`) group (lines 117–139); `sortedIdx`
is the sorted index list `topk_index_ijk` used for the amplitude-window
truncation. -/
def pickOfEntry (a : ExtractArgs) (i j k : ℕ) (sortedIdx : List ℕ)
    (ii : ℕ) (e : ℕ × ℚ) : Pick :=
  { station_id :=
      match a.station_id with
      | some f => f k i
      | none => intPad4 ((k : ℤ) + offAt a.begin_channel_index i)
    phase_index := (e.1 : ℤ) + offAt a.begin_time_index i
    phase_time :=
      isoformatMs (dtAddSeconds (beginAnchor a i) (qMul (e.1 : ℚ) (a.dt.get i)))
    phase_score := formatF3 e.2
    phase_type := a.phases.getD j ""
    phase_polarity := a.polarity_score.map fun ps => formatF3 (ps i 0 e.1 k)
    phase_amplitude := a.waveform.map fun w =>
      let wampi := (pyInt (qDiv ((resolveWindowAmp a).getD j 0) (a.dt.get i))).toNat
      formatE3 (sliceMax (fun t => waveAmp w i t k) e.1
        (ampEnd sortedIdx ii e.1 wampi)) }

/-- Insertion of a pair into a list sorted by index, before any pair of
equal index (so the resulting sort is stable). -/
def insertByIdx (p : ℕ × ℚ) : List (ℕ × ℚ) → List (ℕ × ℚ)
  | [] => [p]
  | q :: l => if q.1 < p.1 then q :: insertByIdx p l else p :: q :: l

/-- `torch.sort(topk_index[i, j, k])` together with the index-aligned
gather of the scores (lines 113–114): a stable sort of the (index, score)
pairs by ascending index. -/
def sortPairs (l : List (ℕ × ℚ)) : List (ℕ × ℚ) :=
  l.foldr insertByIdx []

theorem insertByIdx_perm (p : ℕ × ℚ) (l : List (ℕ × ℚ)) :
    List.Perm (insertByIdx p l) (p :: l) := by
  induction l with
  | nil => exact List.Perm.refl _
  | cons q m ih =>
    rw [insertByIdx]
    split
    · exact (ih.cons q).trans (List.Perm.swap p q m)
    · exact List.Perm.refl _

theorem sortPairs_perm (l : List (ℕ × ℚ)) : List.Perm (sortPairs l) l := by
  induction l with
  | nil => exact List.Perm.refl _
  | cons p m ih =>
    exact (insertByIdx_perm p (sortPairs m)).trans (ih.cons p)

theorem mem_sortPairs {l : List (ℕ × ℚ)} {p : ℕ × ℚ} :
    p ∈ sortPairs l ↔ p ∈ l :=
  (sortPairs_perm l).mem_iff

theorem insertByIdx_pairwise {p : ℕ × ℚ} {l : List (ℕ × ℚ)}
    (h : l.Pairwise fun a b => a.1 ≤ b.1) :
    (insertByIdx p l).Pairwise fun a b => a.1 ≤ b.1 := by
  induction l with
  | nil => exact List.pairwise_singleton _ p
  | cons q m ih =>
    rw [List.pairwise_cons] at h
    rw [insertByIdx]
    split
    · rw [List.pairwise_cons]
      refine ⟨?_, ih h.2⟩
      intro b hb
      rcases List.mem_cons.mp ((insertByIdx_perm p m).mem_iff.mp hb) with
        rfl | hb'
      · omega
      · exact h.1 b hb'
    · rw [List.pairwise_cons]
      refine ⟨?_, List.pairwise_cons.mpr h⟩
      intro b hb
      rcases List.mem_cons.mp hb with rfl | hb'
      · omega
      · exact le_trans (by omega) (h.1 b hb')

/-- The sorted group is non-decreasing in the time-index. -/
theorem sortPairs_pairwise (l : List (ℕ × ℚ)) :
    (sortPairs l).Pairwise fun a b => a.1 ≤ b.1 := by
  induction l with
  | nil => exact List.Pairwise.nil
  | cons p m ih => exact insertByIdx_pairwise ih

/-- The picks emitted for one (batch, channel, station) group: the sorted
entries are enumerated and every entry with `score > vmin` becomes a pick
(lines 113–141). -/
def stationPicks (a : ExtractArgs) (i j k : ℕ) : List Pick :=
  let sorted := sortPairs (a.topk i j k)
  sorted.enum.filterMap fun p =>
    if a.vmin < p.2.2 then
      some (pickOfEntry a i j k (sorted.map Prod.fst) p.1 p.2)
    else none

/-- `extract_picks` (lines 38–144): one pick list per batch element, the
class-channel loop outside the station loop. -/
def extract_picks (a : ExtractArgs) : List (List Pick) :=
  (List.range a.batch).map fun i =>
    (List.range a.nch).flatMap fun j =>
      (List.range a.nst).flatMap fun k => stationPicks a i j k

/-! ### Structural lemmas for `extract_picks` -/

/-- Small `rfl` lemmas exposing the fields of a built pick. -/
theorem pickOfEntry_phase_index (a : ExtractArgs) (i j k : ℕ)
    (si : List ℕ) (ii : ℕ) (e : ℕ × ℚ) :
    (pickOfEntry a i j k si ii e).phase_index =
      (e.1 : ℤ) + offAt a.begin_time_index i := rfl

theorem pickOfEntry_phase_time (a : ExtractArgs) (i j k : ℕ)
    (si : List ℕ) (ii : ℕ) (e : ℕ × ℚ) :
    (pickOfEntry a i j k si ii e).phase_time =
      isoformatMs (dtAddSeconds (beginAnchor a i)
        (qMul (e.1 : ℚ) (a.dt.get i))) := rfl

theorem pickOfEntry_phase_type (a : ExtractArgs) (i j k : ℕ)
    (si : List ℕ) (ii : ℕ) (e : ℕ × ℚ) :
    (pickOfEntry a i j k si ii e).phase_type = a.phases.getD j "" := rfl

theorem pickOfEntry_phase_score (a : ExtractArgs) (i j k : ℕ)
    (si : List ℕ) (ii : ℕ) (e : ℕ × ℚ) :
    (pickOfEntry a i j k si ii e).phase_score = formatF3 e.2 := rfl

/-- Membership characterization of one group's pick list. -/
theorem mem_stationPicks {a : ExtractArgs} {i j k : ℕ} {p : Pick} :
    p ∈ stationPicks a i j k ↔
      ∃ ii e, (ii, e) ∈ (sortPairs (a.topk i j k)).enum ∧ a.vmin < e.2 ∧
        p = pickOfEntry a i j k ((sortPairs (a.topk i j k)).map Prod.fst)
          ii e := by
  simp only [stationPicks, List.mem_filterMap]
  constructor
  · rintro ⟨q, hq, hsome⟩
    split at hsome
    · exact ⟨q.1, q.2, hq, by assumption, (Option.some.inj hsome).symm⟩
    · cases hsome
  · rintro ⟨ii, e, hmem, hv, rfl⟩
    exact ⟨(ii, e), hmem, if_pos hv⟩

/-- The pick list of batch element `i < batch`. -/
theorem extract_picks_getD (a : ExtractArgs) (i : ℕ) (hi : i < a.batch) :
    (extract_picks a).getD i [] =
      (List.range a.nch).flatMap fun j =>
        (List.range a.nst).flatMap fun k => stationPicks a i j k := by
  rw [extract_picks, List.getD_eq_getElem?_getD, List.getElem?_map,
    List.getElem?_range hi]
  rfl

/-- Every emitted pick originates from one (channel, station) group. -/
theorem mem_extract {a : ExtractArgs} {i : ℕ} {p : Pick} (hi : i < a.batch)
    (hp : p ∈ (extract_picks a).getD i []) :
    ∃ j k, j < a.nch ∧ k < a.nst ∧ p ∈ stationPicks a i j k := by
  rw [extract_picks_getD a i hi] at hp
  rcases List.mem_flatMap.mp hp with ⟨j, hj, hp⟩
  rcases List.mem_flatMap.mp hp with ⟨k, hk, hp⟩
  exact ⟨j, k, List.mem_range.mp hj, List.mem_range.mp hk, hp⟩

/-- An enumeration of a pairwise-related list is pairwise-related on the
second components. -/
theorem pairwise_enumFrom {α : Type} {R : α → α → Prop} :
    ∀ {l : List α} (n : ℕ), l.Pairwise R →
      (l.enumFrom n).Pairwise fun p q => R p.2 q.2 := by
  intro l
  induction l with
  | nil => intro n _; exact List.Pairwise.nil
  | cons a m ih =>
    intro n h
    rw [List.pairwise_cons] at h
    rw [List.enumFrom_cons, List.pairwise_cons]
    refine ⟨?_, ih (n + 1) h.2⟩
    intro q hq
    exact h.1 q.2 (List.snd_mem_of_mem_enumFrom hq)

/-- Within one (batch, class, station) group the emitted picks are in
non-decreasing `phase_index` order. -/
theorem stationPicks_pairwise (a : ExtractArgs) (i j k : ℕ) :
    (stationPicks a i j k).Pairwise fun p q =>
      p.phase_index ≤ q.phase_index := by
  have h2 : ((sortPairs (a.topk i j k)).enum).Pairwise
      (fun p q : ℕ × (ℕ × ℚ) => p.2.1 ≤ q.2.1) :=
    pairwise_enumFrom 0 (sortPairs_pairwise (a.topk i j k))
  show (List.filterMap _ _).Pairwise _
  refine List.Pairwise.filterMap _ ?_ h2
  intro p q hpq c hc d hd
  split at hc
  · split at hd
    · rw [Option.mem_some_iff] at hc hd
      subst hc
      subst hd
      rw [pickOfEntry_phase_index, pickOfEntry_phase_index]
      exact add_le_add_right (Int.ofNat_le.mpr hpq) _
    · cases hd
  · cases hc

/-! ### Claim theorems about `extract_picks` -/

/-- The end-to-end C2 input: (1 batch, 2 class-channels, 300 time samples,
1 station), all zero except a single 0.95 impulse at time 150 in
channel 1. -/
def c2Tensor : ScoreTensor :=
  { nb := 1, nc := 2, nt := 300, nx := 1
    val := fun _ c t _ => if c = 1 ∧ t = 150 then mkRat 19 20 else 0 }

/-- `extract_picks` arguments of the C2 scenario: the output of
`detect_peaks(kernel=21, K default)` with `vmin = 0.5`, `dt = 0.01` and
anchor `2024-01-01T00:00:00.000`. -/
def c2Args : ExtractArgs :=
  { batch := 1, nch := (detect_peaks c2Tensor 21 0).outc, nst := 1
    topk := (detect_peaks c2Tensor 21 0).peaks
    begin_time := some ["2024-01-01T00:00:00.000"]
    vmin := mkRat 1 2
    dt := .scalar (mkRat 1 100) }

/-- The single pick the C2 scenario must produce. -/
def c2Pick : Pick :=
  { station_id := "0000", phase_index := 150
    phase_time := "2024-01-01T00:00:01.500", phase_score := "0.950"
    phase_type := "P", phase_polarity := none, phase_amplitude := none }

set_option maxRecDepth 40000 in
set_option maxHeartbeats 4000000 in
/-- **C2.** Every emitted pick carries
`phase_index = index + begin_time_index[i]` while its `phase_time` is the
anchor timestamp plus `index * dt[i]` seconds (no `begin_time_index`
offset), formatted to millisecond precision, and `phase_score` is the
3-decimal formatting of the peak score; and the concrete impulse scenario
(0.95 at index 150 of channel 1, `vmin = 0.5`, `kernel = 21`, `dt = 0.01`,
anchor 2024-01-01T00:00:00.000) yields exactly one pick with
`phase_index = 150`, `phase_time = 2024-01-01T00:00:01.500`,
`phase_score = "0.950"`, `phase_type = "P"`. -/
theorem C2_time_and_index_fields (a : ExtractArgs) :
    (∀ i p, i < a.batch → p ∈ (extract_picks a).getD i [] →
      ∃ j k ii e, (ii, e) ∈ (sortPairs (a.topk i j k)).enum ∧ a.vmin < e.2 ∧
        p.phase_index = (e.1 : ℤ) + offAt a.begin_time_index i ∧
        p.phase_time =
          isoformatMs (dtAddSeconds (beginAnchor a i)
            ((e.1 : ℚ) * a.dt.get i)) ∧
        p.phase_score = formatF3 e.2) ∧
    extract_picks c2Args = [[c2Pick]] := by
  constructor
  · intro i p hi hp
    rcases mem_extract hi hp with ⟨j, k, _, _, hp⟩
    rcases mem_stationPicks.mp hp with ⟨ii, e, hmem, hv, rfl⟩
    exact ⟨j, k, ii, e, hmem, hv, pickOfEntry_phase_index a i j k _ ii e,
      by rw [pickOfEntry_phase_time, qMul_eq],
      pickOfEntry_phase_score a i j k _ ii e⟩
  · decide

theorem C2_witness : extract_picks c2Args = [[c2Pick]] :=
  (C2_time_and_index_fields c2Args).2

/-- **C4.** Every emitted pick originates from a sorted group entry whose
score strictly exceeds `vmin`; when every entry's score is at most `vmin`
(in particular, exactly equal to it), no pick at all is produced. -/
theorem C4_strict_vmin_threshold (a : ExtractArgs) :
    (∀ i p, i < a.batch → p ∈ (extract_picks a).getD i [] →
      ∃ j k ii e, j < a.nch ∧ k < a.nst ∧
        (ii, e) ∈ (sortPairs (a.topk i j k)).enum ∧ a.vmin < e.2 ∧
        p = pickOfEntry a i j k ((sortPairs (a.topk i j k)).map Prod.fst)
          ii e) ∧
    ((∀ i j k, ∀ e ∈ a.topk i j k, e.2 ≤ a.vmin) →
      extract_picks a = List.replicate a.batch []) := by
  constructor
  · intro i p hi hp
    rcases mem_extract hi hp with ⟨j, k, hj, hk, hp⟩
    rcases mem_stationPicks.mp hp with ⟨ii, e, hmem, hv, rfl⟩
    exact ⟨j, k, ii, e, hj, hk, hmem, hv, rfl⟩
  · intro h
    have hsp : ∀ i j k, stationPicks a i j k = [] := by
      intro i j k
      show List.filterMap _ _ = []
      rw [List.filterMap_eq_nil_iff]
      intro q hq
      have hq2 : q.2 ∈ a.topk i j k := by
        rw [← mem_sortPairs]
        exact List.snd_mem_of_mem_enumFrom hq
      rw [if_neg (not_lt.mpr (h i j k q.2 hq2))]
    rw [extract_picks]
    rw [List.eq_replicate_iff]
    refine ⟨by simp, ?_⟩
    intro b hb
    rcases List.mem_map.mp hb with ⟨i, _, rfl⟩
    simp [hsp]

/-- C4 witness input: a single group whose only entry scores exactly
`vmin = 3/10`. -/
def c4Args : ExtractArgs :=
  { batch := 1, nch := 1, nst := 1
    topk := fun _ _ _ => [(5, mkRat 3 10)] }

theorem C4_witness : extract_picks c4Args = List.replicate 1 [] :=
  (C4_strict_vmin_threshold c4Args).2
    (by
      intro i j k e he
      rcases List.mem_singleton.mp he with rfl
      decide)

/-- C9 fixture: two class-channels whose picks are at times 100 ("P") and
50 ("S"), so the flattened batch list is not globally time-sorted. -/
def c9Args : ExtractArgs :=
  { batch := 1, nch := 2, nst := 1
    topk := fun _ j _ => if j = 0 then [(100, mkRat 9 10)] else [(50, mkRat 9 10)] }

/-- **C9.** The pick list of a batch element is the concatenation of the
per-(class, station) groups in class-major then station-major order; within
one group picks appear in non-decreasing `phase_index` order (top-K entries
sorted by time before emission), every pick of group (j, k) carries
`phases[j]`; and the list is not globally time-sorted (witnessed by a
2-channel input whose flattened list is out of order). -/
theorem C9_encounter_order (a : ExtractArgs) :
    extract_picks a =
      ((List.range a.batch).map fun i =>
        (List.range a.nch).flatMap fun j =>
          (List.range a.nst).flatMap fun k => stationPicks a i j k) ∧
    (∀ i j k, (stationPicks a i j k).Pairwise fun p q =>
      p.phase_index ≤ q.phase_index) ∧
    (∀ i j k, ∀ p ∈ stationPicks a i j k,
      p.phase_type = a.phases.getD j "") ∧
    ¬ (((extract_picks c9Args).getD 0 []).Pairwise fun p q =>
      p.phase_index ≤ q.phase_index) := by
  refine ⟨rfl, stationPicks_pairwise a, ?_, ?_⟩
  · intro i j k p hp
    rcases mem_stationPicks.mp hp with ⟨ii, e, _, _, rfl⟩
    exact pickOfEntry_phase_type a i j k _ ii e
  · decide

theorem C9_witness :
    ¬ (((extract_picks c9Args).getD 0 []).Pairwise fun p q =>
      p.phase_index ≤ q.phase_index) :=
  (C9_encounter_order c9Args).2.2.2

/-- C6 fixture: one group with two surviving peaks 8 samples apart
(indices 100 and 108) and a nominal amplitude window of
`window_amp / dt = 0.1 / 0.01 = 10` samples. -/
def c6Wave : Waveform :=
  { nchan := 1
    val := fun _ _ t _ =>
      if t = 109 then 7 else if t = 105 then 2 else if t = 110 then 3 else 1 }

def c6Args : ExtractArgs :=
  { batch := 1, nch := 1, nst := 1
    topk := fun _ _ _ => [(100, mkRat 9 10), (108, mkRat 9 10)]
    waveform := some c6Wave
    window_amp := [mkRat 1 10] }

/-- The two picks of the C6 fixture: the earlier amplitude window is
truncated at the next peak (8 samples, missing the amplitude 7 at
index 109), the last pick gets the full 10-sample window (capturing it). -/
def c6Pick1 : Pick :=
  { station_id := "0000", phase_index := 100
    phase_time := "1970-01-01T00:00:01.000", phase_score := "0.900"
    phase_type := "P", phase_polarity := none
    phase_amplitude := some "2.000e+00" }

def c6Pick2 : Pick :=
  { station_id := "0000", phase_index := 108
    phase_time := "1970-01-01T00:00:01.080", phase_score := "0.900"
    phase_type := "P", phase_polarity := none
    phase_amplitude := some "7.000e+00" }

set_option maxRecDepth 40000 in
set_option maxHeartbeats 1000000 in
/-- **C6.** With a waveform supplied, every emitted pick's amplitude is the
maximum envelope amplitude over the half-open window
`[index, ampEnd sortedIdx ii index wampi)` with
`wampi = int(window_amp[j] / dt[i])`, where `ampEnd` is
`min(index + wampi, next peak index)` for a pick that is not last in its
sorted group and `index + wampi` for the last one; concretely, two peaks 8
samples apart with a 10-sample nominal window give the earlier pick a
window truncated to 8 samples. -/
theorem C6_amplitude_window (a : ExtractArgs) (w : Waveform)
    (hw : a.waveform = some w) :
    (∀ i j k p, p ∈ stationPicks a i j k →
      ∃ ii e, (ii, e) ∈ (sortPairs (a.topk i j k)).enum ∧ a.vmin < e.2 ∧
        p.phase_amplitude = some (formatE3 (sliceMax
          (fun t => waveAmp w i t k) e.1
          (ampEnd ((sortPairs (a.topk i j k)).map Prod.fst) ii e.1
            (pyInt (qDiv ((resolveWindowAmp a).getD j 0)
              (a.dt.get i))).toNat)))) ∧
    (∀ si ii j1 wampi nxt, List.get? si (ii + 1) = some nxt →
      ampEnd si ii j1 wampi = min (j1 + wampi) nxt) ∧
    (∀ si ii j1 wampi, List.get? si (ii + 1) = none →
      ampEnd si ii j1 wampi = j1 + wampi) ∧
    extract_picks c6Args = [[c6Pick1, c6Pick2]] := by
  refine ⟨?_, ?_, ?_, ?_⟩
  · intro i j k p hp
    rcases mem_stationPicks.mp hp with ⟨ii, e, hmem, hv, rfl⟩
    refine ⟨ii, e, hmem, hv, ?_⟩
    show (a.waveform.map _) = _
    rw [hw]
    rfl
  · intro si ii j1 wampi nxt h
    rw [ampEnd, h]
  · intro si ii j1 wampi h
    rw [ampEnd, h]
  · decide

theorem C6_witness : extract_picks c6Args = [[c6Pick1, c6Pick2]] :=
  (C6_amplitude_window c6Args c6Wave rfl).2.2.2

/-!
### `merge_das_picks` / `merge_seismic_picks`

Following the repository's own design note, the merge logic is modelled as
a pure function from "(group-key, ordered file contents)" to merged
output: a file is its list of lines, and files are given in the sorted
filename order in which the source iterates over them.
-/

/-- The accumulation loop of `merge_das_picks` (lines 167–175) over one
group: `picks` collects the output lines, the second component is the
`header` variable (`None` until the first non-empty file is seen, whose
first line is then appended once); every file contributes its lines
without the first (`tmp[1:]`). -/
def mergeDasFold (files : List (List String)) : List String × Option String :=
  files.foldl
    (fun acc tmp =>
      match acc.2, tmp with
      | none, h :: _ => (acc.1 ++ [h] ++ tmp.tail, some h)
      | _, _ => (acc.1 ++ tmp.tail, acc.2))
    ([], none)

/-- One group of `merge_das_picks` (lines 166–181): the merged lines are
written only when `len(picks) > min_picks` (line 177); `none` means the
group is dropped (no output file). -/
def merge_das_group (files : List (List String)) (min_picks : ℕ) :
    Option (List String) :=
  let picks := (mergeDasFold files).1
  if min_picks < picks.length then some picks else none

/-- `merge_seismic_picks` (lines 187–200): the lines written to the merged
output — the first line of the first non-empty file, then every file's
lines without the first. -/
def merge_seismic_picks (files : List (List String)) : List String :=
  (files.foldl
    (fun acc lines =>
      match acc.2, lines with
      | true, h :: _ => (acc.1 ++ [h] ++ lines.tail, false)
      | _, _ => (acc.1 ++ lines.tail, acc.2))
    ([], true)).1

/-- The single header row of a merge: the first line of the first
non-empty file, if any. -/
def headerPart (files : List (List String)) : List String :=
  match files.find? (fun f => !f.isEmpty) with
  | some f => f.take 1
  | none => []

/-- The data rows of a merge: every file's lines without its first, in
file order. -/
def dataPart (files : List (List String)) : List String :=
  (files.map List.tail).flatten

theorem mergeDasFold_some (files : List (List String)) (picks : List String)
    (h : String) :
    files.foldl
      (fun acc tmp =>
        match acc.2, tmp with
        | none, h :: _ => (acc.1 ++ [h] ++ tmp.tail, some h)
        | _, _ => (acc.1 ++ tmp.tail, acc.2))
      (picks, some h) = (picks ++ dataPart files, some h) := by
  induction files generalizing picks with
  | nil => simp [dataPart]
  | cons tmp rest ih =>
    rw [List.foldl_cons]
    show rest.foldl _ (picks ++ tmp.tail, some h) = _
    rw [ih]
    simp [dataPart]

theorem mergeDasFold_eq (files : List (List String)) :
    mergeDasFold files =
      (headerPart files ++ dataPart files,
        (files.find? fun f => !f.isEmpty).bind List.head?) := by
  rw [mergeDasFold]
  suffices H : ∀ (picks : List String),
      files.foldl
        (fun acc tmp =>
          match acc.2, tmp with
          | none, h :: _ => (acc.1 ++ [h] ++ tmp.tail, some h)
          | _, _ => (acc.1 ++ tmp.tail, acc.2))
        (picks, none) =
        (picks ++ headerPart files ++ dataPart files,
          (files.find? fun f => !f.isEmpty).bind List.head?) by
    simpa using H []
  induction files with
  | nil => intro picks; simp [headerPart, dataPart]
  | cons tmp rest ih =>
    intro picks
    rw [List.foldl_cons]
    cases tmp with
    | nil =>
      show rest.foldl _ (picks ++ [], none) = _
      rw [ih]
      simp [headerPart, dataPart, List.find?]
    | cons h t =>
      show rest.foldl _ (picks ++ [h] ++ t, some h) = _
      rw [mergeDasFold_some]
      simp [headerPart, dataPart, List.find?]

theorem merge_seismic_eq (files : List (List String)) :
    merge_seismic_picks files = headerPart files ++ dataPart files := by
  rw [merge_seismic_picks]
  suffices H : ∀ (out : List String),
      (files.foldl
        (fun acc lines =>
          match acc.2, lines with
          | true, h :: _ => (acc.1 ++ [h] ++ lines.tail, false)
          | _, _ => (acc.1 ++ lines.tail, acc.2))
        (out, true)).1 = out ++ headerPart files ++ dataPart files by
    simpa using H []
  have hfalse : ∀ (fs : List (List String)) (out : List String),
      fs.foldl
        (fun acc lines =>
          match acc.2, lines with
          | true, h :: _ => (acc.1 ++ [h] ++ lines.tail, false)
          | _, _ => (acc.1 ++ lines.tail, acc.2))
        (out, false) = (out ++ dataPart fs, false) := by
    intro fs
    induction fs with
    | nil => intro out; simp [dataPart]
    | cons tmp rest ih =>
      intro out
      rw [List.foldl_cons]
      show rest.foldl _ (out ++ tmp.tail, false) = _
      rw [ih]
      simp [dataPart]
  induction files with
  | nil => intro out; simp [headerPart, dataPart]
  | cons tmp rest ih =>
    intro out
    rw [List.foldl_cons]
    cases tmp with
    | nil =>
      show (rest.foldl _ (out ++ [], true)).1 = _
      rw [ih]
      simp [headerPart, dataPart, List.find?]
    | cons h t =>
      show (rest.foldl _ (out ++ [h] ++ t, false)).1 = _
      rw [hfalse]
      simp [headerPart, dataPart, List.find?]

/-- C5 counterexample input: one file with a header row and exactly 10
data rows. -/
def c5File : List String :=
  "header" :: ((List.range 10).map fun n => toString n)

/-- **C5 is false as stated**: a group with exactly `min_picks = 10` data
rows (plus the header) has 11 collected lines, `11 > 10` holds, and the
group IS written — it does not produce "no output file". -/
theorem C5_counterexample : merge_das_group [c5File] 10 ≠ none := by decide

/-- **C5 (amended).** The header row counts toward the `len(picks) >
min_picks` comparison: a group containing at least one non-empty file is
written iff its data-row count is at least `min_picks`; in particular a
group with exactly `min_picks` data rows is written, and one with
`min_picks - 1` data rows is dropped. -/
theorem C5_min_picks_threshold (files : List (List String)) (min_picks : ℕ)
    (hne : ∃ f ∈ files, f ≠ []) :
    ((merge_das_group files min_picks).isSome ↔
      min_picks ≤ (dataPart files).length) ∧
    ((dataPart files).length = min_picks →
      merge_das_group files min_picks ≠ none) := by
  have hfind : ∃ f, files.find? (fun f => !f.isEmpty) = some f := by
    rcases hne with ⟨f, hf, hfe⟩
    have : (files.find? fun f => !f.isEmpty).isSome :=
      List.find?_isSome.mpr ⟨f, hf, by simpa [List.isEmpty_iff] using hfe⟩
    exact Option.isSome_iff_exists.mp this
  rcases hfind with ⟨f, hf⟩
  have hfne : f ≠ [] := by
    have := List.find?_some hf
    simpa [List.isEmpty_iff] using this
  have hlen : (headerPart files).length = 1 := by
    rw [headerPart, hf, List.length_take]
    cases f with
    | nil => exact absurd rfl hfne
    | cons a l => simp
  have hpicks : (mergeDasFold files).1.length = 1 + (dataPart files).length := by
    rw [mergeDasFold_eq]
    simp [hlen]
  constructor
  · rw [merge_das_group]
    show (if min_picks < (mergeDasFold files).1.length then
      some (mergeDasFold files).1 else none).isSome ↔ _
    rw [hpicks]
    split <;> rename_i hcond <;> simp <;> omega
  · intro hd
    rw [merge_das_group]
    show (if min_picks < (mergeDasFold files).1.length then
      some (mergeDasFold files).1 else none) ≠ none
    rw [hpicks, hd, if_pos (by omega)]
    exact Option.some_ne_none _

theorem C5_witness :
    ((merge_das_group [c5File] 10).isSome ↔
      10 ≤ (dataPart [c5File]).length) ∧
    ((dataPart [c5File]).length = 10 → merge_das_group [c5File] 10 ≠ none) :=
  C5_min_picks_threshold [c5File] 10 ⟨c5File, by decide, by decide⟩

/-- **C7 is false as stated**: with a header-only first file `["H1"]` and a
second file `["H2", "d1"]` that has the first data row, both merge
disciplines take the header from the header-only file `H1`, not from the
first file containing a data row. -/
theorem C7_counterexample :
    ((merge_das_group [["H1"], ["H2", "d1"]] 0).getD []).head? = some "H1" ∧
    ¬ (((merge_das_group [["H1"], ["H2", "d1"]] 0).getD []).head? =
      some "H2") ∧
    (merge_seismic_picks [["H1"], ["H2", "d1"]]).head? = some "H1" := by
  refine ⟨by decide, by decide, by decide⟩

/-- **C7 (amended).** In both merge disciplines the single header row is
the first line of the first non-empty file in sorted order (header-only
files are not skipped for header selection; fully empty files are), and
every file contributes exactly its non-header lines as data rows. -/
theorem C7_header_first_nonempty (files : List (List String))
    (min_picks : ℕ) :
    merge_das_group files min_picks =
      (if min_picks < (headerPart files ++ dataPart files).length then
        some (headerPart files ++ dataPart files)
      else none) ∧
    merge_seismic_picks files = headerPart files ++ dataPart files := by
  constructor
  · rw [merge_das_group]
    show (if min_picks < (mergeDasFold files).1.length then
      some (mergeDasFold files).1 else none) = _
    rw [mergeDasFold_eq]
  · exact merge_seismic_eq files
